import Mathlib

/-!
# Verification of the Syllabuddy RAG indexing and query pipeline

Shallow embedding of the core retrieval-augmented-generation pipeline of the
Syllabuddy repository (`server/src/services/ragPipeline.ts`, the service module
that exports `chunkText`, `cosineSimilarity`, `indexSyllabus`,
`removeSyllabusFromIndex` and `queryRAG`, plus the relevant slice of the upload
route in `server/src/routes/syllabus.ts`), together with proofs and refutations
of the specification's claims about it.

Modelling conventions:
* JavaScript strings are Lean `String`s; the whitespace class of the regex
  `/\s+/` is modelled by the ASCII whitespace characters (space, tab, newline,
  carriage return) — all inputs considered here use only those.
* JavaScript numbers are modelled by an arbitrary linear ordered field `K`
  (instantiated at `ℝ` for the square-root facts and at `ℚ` for executable
  witnesses); `Math.sqrt` is passed as an explicit function parameter.
  Floating-point rounding and NaN are outside the model: the one place NaN
  could arise (`b[i]` read out of range in `cosineSimilarity`, which poisons
  the result in JavaScript) is modelled as contributing nothing, and no claim
  below is settled on inputs that hit that case.
* The MongoDB `Embedding` collection is modelled as a list of records:
  `find` filters, `insertMany` appends in input order, `deleteMany` filters
  out the matching records.  Thrown exceptions are modelled with `Except`.
* The `for (let i = 0; ...; i += chunkSize - overlap)` loop of `chunkText`
  does not terminate when `overlap >= chunkSize` (the step is `<= 0`), so the
  loop is embedded with explicit fuel: `none` means the fuel ran out, and
  divergence of the source loop corresponds to the result being `none` for
  every fuel.
-/

namespace Syllabuddy

/-! ## Text chunker (`chunkText` and the JavaScript primitives it uses) -/

/-- One character of the regex class `\s` (ASCII fragment, see module header). -/
def isWs (ch : Char) : Bool :=
  ch == ' ' || ch == '\t' || ch == '\n' || ch == '\r'

/-- Worker for `text.split(/\s+/)`.  The second argument is `some acc` while a
token (reversed in `acc`) is being accumulated, and `none` while a maximal
whitespace run is being skipped.  Mirrors JavaScript `String.prototype.split`
with a `\s+` separator: the empty string yields `[""]`, leading whitespace
yields a leading `""`, trailing whitespace a trailing `""`. -/
def splitWsAux : List Char → Option (List Char) → List String
  | [], some acc => [String.mk acc.reverse]
  | [], none => [""]
  | ch :: cs, some acc =>
    if isWs ch then String.mk acc.reverse :: splitWsAux cs none
    else splitWsAux cs (some (ch :: acc))
  | ch :: cs, none =>
    if isWs ch then splitWsAux cs none
    else splitWsAux cs (some [ch])

/-- `text.split(/\s+/)` from `chunkText`. -/
def jsSplitWs (s : String) : List String :=
  splitWsAux s.data (some [])

/-- `words.join(' ')` (`Array.prototype.join` with separator `' '`). -/
def joinSpace : List String → String
  | [] => ""
  | [s] => s
  | s :: rest => s ++ " " ++ joinSpace rest

/-- The test `chunk.trim().length > 0` from `chunkText`: a string trims to a
nonempty string iff it contains a non-whitespace character. -/
def hasNonWs (s : String) : Bool :=
  s.data.any fun ch => !(isWs ch)

/-- Clamp an `Array.prototype.slice` index to `[0, len]` the way JavaScript
does: negative indices count from the end, out-of-range indices clamp. -/
def jsSliceBound (len : ℕ) (x : ℤ) : ℕ :=
  if x < 0 then ((len : ℤ) + x).toNat else min x.toNat len

/-- `l.slice(start, stop)` for JavaScript arrays. -/
def jsSlice {α : Type} (l : List α) (start stop : ℤ) : List α :=
  (l.take (jsSliceBound l.length stop)).drop (jsSliceBound l.length start)

/-- The loop `for (let i = 0; i < words.length; i += chunkSize - overlap)` of
`chunkText`, with explicit fuel (one unit per loop-condition check).  Each
iteration builds `words.slice(i, i + chunkSize).join(' ')` and pushes it when
`chunk.trim().length > 0`.  `none` means the fuel was exhausted; the source
loop diverges exactly when the result is `none` for every fuel. -/
def chunkLoopF (words : List String) (chunkSize overlap : ℤ) : ℕ → ℤ → Option (List String)
  | 0, _ => none
  | fuel + 1, i =>
    if i < (words.length : ℤ) then
      (chunkLoopF words chunkSize overlap fuel (i + (chunkSize - overlap))).map fun rest =>
        let chunk := joinSpace (jsSlice words i (i + chunkSize))
        if hasNonWs chunk then chunk :: rest else rest
    else some []

/-- `chunkText(text, chunkSize, overlap)` with explicit fuel for its loop:
split on whitespace runs, return `[text]` (the raw text) when there are at
most `chunkSize` tokens, otherwise run the windowing loop. -/
def chunkTextF (fuel : ℕ) (text : String) (chunkSize overlap : ℤ) : Option (List String) :=
  let words := jsSplitWs text
  if (words.length : ℤ) ≤ chunkSize then some [text]
  else chunkLoopF words chunkSize overlap fuel 0

/-- Total version of `chunkText`, supplying fuel `words.length + 1`, which is
proved sufficient whenever `overlap < chunkSize` (`chunkTextF_eq_chunkText`):
under that guard this is exactly the source function.  The source defaults are
`chunkSize = 500`, `overlap = 50`; call sites in this file pass them
explicitly. -/
def chunkText (text : String) (chunkSize overlap : ℤ) : List String :=
  (chunkTextF ((jsSplitWs text).length + 1) text chunkSize overlap).getD []

/-- The configurations on which the `chunkText` loop never terminates. -/
def chunkTextDiverges (text : String) (chunkSize overlap : ℤ) : Prop :=
  ∀ fuel : ℕ, chunkTextF fuel text chunkSize overlap = none

/-- Window `k` of the `chunkText` loop:
`words.slice(k*s, k*s + chunkSize).join(' ')` where `s = chunkSize - overlap`. -/
def chunkWindow (words : List String) (c o : ℤ) (k : ℕ) : String :=
  joinSpace (jsSlice words ((k : ℤ) * (c - o)) ((k : ℤ) * (c - o) + c))

/-- The number of iterations the loop performs starting from offset `k * s`:
`ceil((w - k*s) / s)` over the naturals. -/
def windowsFrom (w s k : ℕ) : ℕ :=
  (w - k * s + s - 1) / s

/-! ## Cosine similarity (`cosineSimilarity`) -/

variable {K : Type}

/-- The accumulator loop of `cosineSimilarity`: iterating `i` over the indices
of `a`, returns `(dotProduct, normA, normB)` where the three components sum
`a[i]*b[i]`, `a[i]*a[i]` and `b[i]*b[i]` respectively.  Only the first
`a.length` entries of `b` are ever read, exactly as in the source, whose loop
bound is `a.length`.  When `b` is shorter than `a` the JavaScript reads are
`undefined` and the accumulators become NaN; that float-specific behavior is
outside the model (see the module header) and those positions contribute
nothing here. -/
def cosAccum [LinearOrderedField K] : List K → List K → K × K × K
  | [], _ => (0, 0, 0)
  | x :: xs, [] =>
    let r := cosAccum xs []
    (r.1, x * x + r.2.1, r.2.2)
  | x :: xs, y :: ys =>
    let r := cosAccum xs ys
    (x * y + r.1, x * x + r.2.1, y * y + r.2.2)

/-- `cosineSimilarity(a, b)`: dot product over `sqrt(normA) * sqrt(normB)`,
and `0` when that magnitude is `0`.  `Math.sqrt` is the parameter `sqrt`
(instantiated with `Real.sqrt` when `K = ℝ`). -/
def cosineSimilarity [LinearOrderedField K] (sqrt : K → K) (a b : List K) : K :=
  let acc := cosAccum a b
  let magnitude := sqrt acc.2.1 * sqrt acc.2.2
  if magnitude = 0 then 0 else acc.1 / magnitude

/-- Specification-side sum of squares of a vector (the square of the Euclidean
norm); `Real.sqrt (sumSq a)` is the Euclidean norm the specification speaks
about. -/
def sumSq [LinearOrderedField K] (a : List K) : K :=
  (a.map fun x => x * x).sum

/-- Specification-side dot product of two equal-length vectors. -/
def dotFull [LinearOrderedField K] (a b : List K) : K :=
  (List.zipWith (fun x y => x * y) a b).sum

/-! ## Vector index store and pipeline operations

The MongoDB `Embedding` model (`server/src/models/Embedding.ts`) stores
records `{userId, syllabusId, className, chunkIndex, text, vector}`; the store
is modelled as the list of all records in insertion order. -/

/-- One document of the `Embedding` collection. -/
structure EmbRecord (K : Type) where
  userId : String
  syllabusId : String
  className : String
  chunkIndex : ℕ
  text : String
  vector : List K
  deriving DecidableEq

/-- One element of the list returned by `queryRAG`. -/
structure RagResult (K : Type) where
  text : String
  className : String
  syllabusId : String
  score : K
  deriving DecidableEq

/-- The descending-score ordering used by `scored.sort((a, b) => b.score - a.score)`. -/
def scoreGE [LinearOrderedField K] (x y : RagResult K) : Prop :=
  y.score ≤ x.score

instance [LinearOrderedField K] : DecidableRel (scoreGE (K := K)) :=
  fun x y => inferInstanceAs (Decidable (y.score ≤ x.score))

instance [LinearOrderedField K] : IsTotal (RagResult K) scoreGE :=
  ⟨fun x y => le_total y.score x.score⟩

instance [LinearOrderedField K] : IsTrans (RagResult K) scoreGE :=
  ⟨fun _ _ _ hxy hyz => le_trans hyz hxy⟩

/-- `scored.sort((a, b) => b.score - a.score)`: ECMAScript `Array.prototype.sort`
is a stable sort, so the result is the unique stable descending-by-score
reordering, here realised by insertion sort with `scoreGE`. -/
def sortByScoreDesc [LinearOrderedField K] (l : List (RagResult K)) : List (RagResult K) :=
  List.insertionSort scoreGE l

/-- `Embedding.find({ userId })`: every stored record of this owner. -/
def ragCandidates (store : List (EmbRecord K)) (userId : String) : List (EmbRecord K) :=
  store.filter fun r => r.userId == userId

/-- The `allEmbeddings.map(...)` step of `queryRAG`: score every candidate
against the query embedding. -/
def ragScored [LinearOrderedField K] (sqrt : K → K) (queryEmbedding : List K)
    (cands : List (EmbRecord K)) : List (RagResult K) :=
  cands.map fun emb =>
    ⟨emb.text, emb.className, emb.syllabusId, cosineSimilarity sqrt queryEmbedding emb.vector⟩

/-- `queryRAG(userId, question, topK)`: fetch this owner's records, return `[]`
when there are none (before any embedding call), otherwise embed the question
(`embed`, modelling `generateEmbedding`), score, sort descending and
`slice(0, topK)`. -/
def queryRAG [LinearOrderedField K] (sqrt : K → K) (embed : String → List K)
    (store : List (EmbRecord K)) (userId question : String) (topK : ℕ) : List (RagResult K) :=
  let allEmbeddings := ragCandidates store userId
  if allEmbeddings.length = 0 then []
  else (sortByScoreDesc (ragScored sqrt (embed question) allEmbeddings)).take topK

/-- The `docs` array built by `indexSyllabus`:
`chunks.map((chunk, i) => ...)` producing the record with `chunkIndex = i`,
`text = chunk`, `vector = embeddings[i]`.  An out-of-range `embeddings[i]`
(possible only if the embedding client broke its order-preservation contract)
is modelled as the empty vector. -/
def indexDocs (userId syllabusId className : String) (chunks : List String)
    (embeddings : List (List K)) : List (EmbRecord K) :=
  chunks.enum.map fun p =>
    ⟨userId, syllabusId, className, p.1, p.2, embeddings.getD p.1 []⟩

/-- `indexSyllabus(userId, syllabusId, className, text)`: chunk with the
default parameters `(500, 50)`, return `0` on zero chunks, embed all chunks
(`embedBatch`, modelling `generateEmbeddings`; a thrown provider error is
`Except.error`, which aborts before the store write), then `insertMany` the
records built with `chunkIndex = i` and return the chunk count. -/
def indexSyllabus (embedBatch : List String → Except String (List (List K)))
    (store : List (EmbRecord K)) (userId syllabusId className text : String) :
    Except String (List (EmbRecord K) × ℕ) :=
  let chunks := chunkText text 500 50
  if chunks.length = 0 then Except.ok (store, 0)
  else
    match embedBatch chunks with
    | Except.error e => Except.error e
    | Except.ok embeddings =>
      Except.ok (store ++ indexDocs userId syllabusId className chunks embeddings,
        chunks.length)

/-- `removeSyllabusFromIndex(userId, syllabusId)`:
`Embedding.deleteMany({ userId, syllabusId })`. -/
def removeSyllabusFromIndex (store : List (EmbRecord K)) (userId syllabusId : String) :
    List (EmbRecord K) :=
  store.filter fun r => !(r.userId == userId && r.syllabusId == syllabusId)

/-- The raw stored syllabus document (the fields of the `Syllabus` model that
matter to the claims). -/
structure SyllabusDoc where
  userId : String
  className : String
  extractedText : String
  deriving DecidableEq

/-- The indexing slice of `POST /api/syllabus/upload`
(`server/src/routes/syllabus.ts`): the raw syllabus is saved first
(`syllabus.save()`), then, when the extracted text is truthy and not the
extraction-failure sentinel, `indexSyllabus` runs inside `try`/`catch` — a
thrown indexing error is logged and swallowed, leaving `chunksIndexed = 0`
while the request still succeeds.  Returns the syllabus store, the embedding
store and the reported `chunksIndexed`. -/
def uploadSyllabus (embedBatch : List String → Except String (List (List K)))
    (sylStore : List SyllabusDoc) (embStore : List (EmbRecord K))
    (userId className text syllabusId : String) :
    List SyllabusDoc × List (EmbRecord K) × ℕ :=
  let sylStore' := sylStore ++ [⟨userId, className, text⟩]
  if text != "" && text != "[Text extraction failed]" then
    match indexSyllabus embedBatch embStore userId syllabusId className text with
    | Except.ok (st, n) => (sylStore', st, n)
    | Except.error _ => (sylStore', embStore, 0)
  else (sylStore', embStore, 0)

/-! ## Sanity checks on concrete inputs -/

example : jsSplitWs "" = [""] := by decide
example : jsSplitWs " a  b " = ["", "a", "b", ""] := by decide
example : chunkText "a b c" 500 50 = ["a b c"] := by decide
example : chunkText "a b c d e f g h i j" 4 2 =
    ["a b c d", "c d e f", "e f g h", "g h i j", "i j"] := by decide

example :
    queryRAG (K := ℚ) id (fun _ => [1])
      [⟨"A", "d1", "CS", 0, "t1", [1]⟩, ⟨"B", "d1", "CS", 0, "t2", [1]⟩] "A" "q" 5 =
      [⟨"t1", "CS", "d1", 1⟩] := by
  simp [queryRAG, ragCandidates, ragScored, sortByScoreDesc, cosineSimilarity, cosAccum, scoreGE]

example :
    indexSyllabus (fun l => Except.ok (l.map fun _ => [(1 : ℚ)])) [] "u1" "d1" "CS" "hello world" =
      Except.ok ([⟨"u1", "d1", "CS", 0, "hello world", [1]⟩], 1) := by
  simp [indexSyllabus, indexDocs, chunkText, chunkTextF, jsSplitWs, splitWsAux, isWs, chunkLoopF]

/-! ## Fuel lemmas for the chunker loop -/

lemma chunkLoopF_mono (words : List String) (c o : ℤ) :
    ∀ (f₁ : ℕ) {f₂ : ℕ} {i : ℤ} {l : List String}, f₁ ≤ f₂ →
      chunkLoopF words c o f₁ i = some l → chunkLoopF words c o f₂ i = some l := by
  intro f₁
  induction f₁ with
  | zero => intro f₂ i l _ h; simp [chunkLoopF] at h
  | succ f ih =>
    intro f₂ i l hle h
    obtain ⟨f₂', rfl⟩ : ∃ f₂', f₂ = f₂' + 1 := ⟨f₂ - 1, by omega⟩
    rw [chunkLoopF] at h ⊢
    by_cases hi : i < (words.length : ℤ)
    · simp only [if_pos hi] at h ⊢
      cases hrec : chunkLoopF words c o f (i + (c - o)) with
      | none => rw [hrec] at h; exact absurd h (by simp)
      | some rest =>
        rw [hrec] at h
        rw [ih (by omega) hrec]
        exact h
    · simp only [if_neg hi] at h ⊢
      exact h

/-! ## Window shape of the chunker loop -/

lemma windowsFrom_zero_of_le {w s k : ℕ} (hs : 0 < s) (h : w ≤ k * s) :
    windowsFrom w s k = 0 := by
  unfold windowsFrom
  have h0 : w - k * s = 0 := by omega
  rw [h0]
  exact Nat.div_eq_of_lt (by omega)

lemma windowsFrom_succ {w s k : ℕ} (hs : 0 < s) (hk : k * s < w) :
    windowsFrom w s k = windowsFrom w s (k + 1) + 1 := by
  unfold windowsFrom
  have ha0 : 0 < w - k * s := by omega
  have hnext : w - (k + 1) * s = (w - k * s) - s := by
    have : (k + 1) * s = k * s + s := by ring
    omega
  rw [hnext]
  set a := w - k * s with ha
  by_cases hle : a ≤ s
  · have h1 : a - s = 0 := by omega
    rw [h1]
    have hL : (a + s - 1) / s = 1 :=
      Nat.div_eq_of_lt_le (by omega) (by omega)
    have hR : (0 + s - 1) / s = 0 := Nat.div_eq_of_lt (by omega)
    rw [hL, hR]
  · have hsplit : a + s - 1 = (a - s + s - 1) + s := by omega
    rw [hsplit, Nat.add_div_right _ hs]

lemma hasNonWs_joinSpace {t : String} {l : List String} (ht : t ∈ l)
    (h : hasNonWs t = true) : hasNonWs (joinSpace l) = true := by
  induction l with
  | nil => cases ht
  | cons s rest ih =>
    cases rest with
    | nil =>
      rw [List.mem_singleton] at ht
      subst ht
      exact h
    | cons s2 rest2 =>
      show hasNonWs (s ++ " " ++ joinSpace (s2 :: rest2)) = true
      rw [hasNonWs, String.data_append, String.data_append, List.any_append, List.any_append]
      rcases List.mem_cons.mp ht with rfl | ht2
      · rw [hasNonWs] at h
        rw [h]
        rfl
      · have hr := ih ht2
        rw [hasNonWs] at hr
        rw [hr]
        simp

lemma jsSlice_sublist {α : Type} (l : List α) (a b : ℤ) : (jsSlice l a b).Sublist l :=
  ((l.take (jsSliceBound l.length b)).drop_sublist _).trans (l.take_sublist _)

lemma jsSlice_window_ne_nil {α : Type} (l : List α) (i c : ℤ) (hi0 : 0 ≤ i)
    (hiw : i < (l.length : ℤ)) (hc : 1 ≤ c) : jsSlice l i (i + c) ≠ [] := by
  have hi0' : ¬ i < 0 := by omega
  have hic0 : ¬ i + c < 0 := by omega
  apply List.ne_nil_of_length_pos
  rw [jsSlice, jsSliceBound, jsSliceBound, if_neg hi0', if_neg hic0]
  rw [List.length_drop, List.length_take]
  omega

lemma hasNonWs_chunkWindow {words : List String} {c o : ℤ} {k : ℕ} (hc : 1 ≤ c)
    (hs0 : 0 ≤ c - o) (hk : (k : ℤ) * (c - o) < (words.length : ℤ))
    (hall : ∀ t ∈ words, hasNonWs t = true) :
    hasNonWs (chunkWindow words c o k) = true := by
  have hi0 : (0 : ℤ) ≤ (k : ℤ) * (c - o) := by positivity
  have hne := jsSlice_window_ne_nil words ((k : ℤ) * (c - o)) c hi0 hk hc
  rw [chunkWindow]
  cases hsl : jsSlice words ((k : ℤ) * (c - o)) ((k : ℤ) * (c - o) + c) with
  | nil => exact absurd hsl hne
  | cons t rest =>
    have htw : t ∈ words := by
      have := (jsSlice_sublist words ((k : ℤ) * (c - o)) ((k : ℤ) * (c - o) + c)).subset
      exact this (hsl ▸ List.mem_cons_self t rest)
    exact hasNonWs_joinSpace (List.mem_cons_self t rest) (hall t htw)

lemma chunkLoopF_isSome (words : List String) (c o : ℤ) :
    ∀ (n : ℕ) (i : ℤ), (words.length : ℤ) ≤ i + (c - o) * (n : ℤ) →
      ∃ l, chunkLoopF words c o (n + 1) i = some l := by
  intro n
  induction n with
  | zero =>
    intro i h
    rw [chunkLoopF, if_neg (by push_cast at h; omega)]
    exact ⟨[], rfl⟩
  | succ n ih =>
    intro i h
    rw [chunkLoopF]
    by_cases hi : i < (words.length : ℤ)
    · obtain ⟨l, hl⟩ := ih (i + (c - o)) (by
        have hexp : (c - o) * ((n : ℤ) + 1) = (c - o) * (n : ℤ) + (c - o) := by ring
        push_cast at h
        rw [hexp] at h
        linarith)
      rw [if_pos hi, hl]
      exact ⟨_, rfl⟩
    · rw [if_neg hi]
      exact ⟨[], rfl⟩

/-- Fuel `words.length + 1` is sufficient whenever `overlap < chunkSize`, so
`chunkText` (which uses exactly that fuel) is the value of the source loop:
for every at-least-as-large fuel the fuelled embedding returns it. -/
lemma chunkTextF_eq_chunkText (text : String) (c o : ℤ) (h : o < c) {fuel : ℕ}
    (hfuel : (jsSplitWs text).length + 1 ≤ fuel) :
    chunkTextF fuel text c o = some (chunkText text c o) := by
  rw [chunkTextF, chunkText, chunkTextF]
  by_cases hw : ((jsSplitWs text).length : ℤ) ≤ c
  · simp [hw]
  · simp only [if_neg hw]
    obtain ⟨l, hl⟩ := chunkLoopF_isSome (jsSplitWs text) c o
      (jsSplitWs text).length 0
      (by
        have h1 : (1 : ℤ) * ((jsSplitWs text).length : ℤ) ≤
            (c - o) * ((jsSplitWs text).length : ℤ) :=
          mul_le_mul_of_nonneg_right (by omega) (by positivity)
        linarith)
    rw [hl]
    exact chunkLoopF_mono (jsSplitWs text) c o _ (by omega) hl

/-- Complete run of the `chunkText` loop from offset `k * s` with enough fuel:
it emits exactly the windows at offsets `k*s, (k+1)*s, ...` strictly below
`words.length`, none of which is dropped by the trim filter when every token
contains a non-whitespace character. -/
lemma chunkLoopF_run (words : List String) (c o : ℤ) (ho : 0 < c - o) (hc : 1 ≤ c)
    (hall : ∀ t ∈ words, hasNonWs t = true) :
    ∀ (n k : ℕ), (words.length : ℤ) ≤ (k : ℤ) * (c - o) + (c - o) * (n : ℤ) →
      chunkLoopF words c o (n + 1) ((k : ℤ) * (c - o)) =
        some ((List.range (windowsFrom words.length (c - o).toNat k)).map
          fun j => chunkWindow words c o (k + j)) := by
  have hsN : (((c - o).toNat : ℕ) : ℤ) = c - o := Int.toNat_of_nonneg (by omega)
  have hsN0 : 0 < (c - o).toNat := by omega
  have hcast : ∀ k : ℕ, ((k * (c - o).toNat : ℕ) : ℤ) = (k : ℤ) * (c - o) := by
    intro k
    push_cast
    rw [hsN]
  intro n
  induction n with
  | zero =>
    intro k hbound
    push_cast at hbound
    rw [chunkLoopF, if_neg (by omega)]
    rw [windowsFrom_zero_of_le hsN0 (by
      have := hcast k
      omega)]
    rfl
  | succ n ih =>
    intro k hbound
    by_cases hk : (k : ℤ) * (c - o) < (words.length : ℤ)
    · have hnext : (k : ℤ) * (c - o) + (c - o) = ((k + 1 : ℕ) : ℤ) * (c - o) := by
        push_cast
        ring
      have hbound' : (words.length : ℤ) ≤ ((k + 1 : ℕ) : ℤ) * (c - o) + (c - o) * (n : ℤ) := by
        have hexp : ((k + 1 : ℕ) : ℤ) * (c - o) + (c - o) * (n : ℤ) =
            (k : ℤ) * (c - o) + (c - o) * ((n : ℤ) + 1) := by
          push_cast
          ring
        rw [hexp]
        push_cast at hbound
        linarith
      rw [chunkLoopF, if_pos hk, hnext, ih (k + 1) hbound']
      rw [Option.map_some']
      have hwin : joinSpace (jsSlice words ((k : ℤ) * (c - o))
          ((k : ℤ) * (c - o) + c)) = chunkWindow words c o k := rfl
      simp only [hwin]
      rw [hasNonWs_chunkWindow hc (by omega) hk hall]
      rw [if_pos rfl]
      have hkN : k * (c - o).toNat < words.length := by
        have := hcast k
        omega
      rw [windowsFrom_succ hsN0 hkN, List.range_succ_eq_map, List.map_cons, List.map_map]
      simp only [Nat.add_zero]
      apply congrArg Option.some
      apply congrArg (List.cons _)
      apply List.map_congr_left
      intro j _
      simp only [Function.comp_apply]
      congr 1
      omega
    · rw [chunkLoopF, if_neg hk]
      rw [windowsFrom_zero_of_le hsN0 (by
        have := hcast k
        omega)]
      rfl

/-- Small-input branch of `chunkText`: at most `chunkSize` tokens returns the
raw text as the single chunk. -/
lemma chunkText_of_le (text : String) (c o : ℤ)
    (hw : ((jsSplitWs text).length : ℤ) ≤ c) : chunkText text c o = [text] := by
  rw [chunkText, chunkTextF]
  simp [hw]

/-- Large-input branch of `chunkText` under the termination guard
`overlap < chunkSize`: exactly the windows at offsets `0, s, 2s, ...` strictly
below the token count (none dropped when every token has a non-whitespace
character). -/
lemma chunkText_windows (text : String) (c o : ℤ) (ho : 0 < c - o) (hc : 1 ≤ c)
    (hw : c < ((jsSplitWs text).length : ℤ))
    (hall : ∀ t ∈ jsSplitWs text, hasNonWs t = true) :
    chunkText text c o =
      (List.range (windowsFrom (jsSplitWs text).length (c - o).toNat 0)).map
        (chunkWindow (jsSplitWs text) c o) := by
  rw [chunkText, chunkTextF]
  rw [if_neg (by omega)]
  have hbound : ((jsSplitWs text).length : ℤ) ≤
      ((0 : ℕ) : ℤ) * (c - o) + (c - o) * ((jsSplitWs text).length : ℤ) := by
    have h1 : (1 : ℤ) * ((jsSplitWs text).length : ℤ) ≤
        (c - o) * ((jsSplitWs text).length : ℤ) :=
      mul_le_mul_of_nonneg_right (by omega) (by positivity)
    push_cast
    linarith
  have hrun := chunkLoopF_run (jsSplitWs text) c o ho hc hall (jsSplitWs text).length 0 hbound
  rw [show (((0 : ℕ) : ℤ) * (c - o)) = (0 : ℤ) by push_cast; ring] at hrun
  rw [hrun]
  simp

/-- With `chunkSize = overlap = 1` and the two-word text `"a b"`, the loop
start never advances: every fuel is exhausted. -/
lemma chunkLoopF_ab_none : ∀ fuel : ℕ, chunkLoopF ["a", "b"] 1 1 fuel 0 = none := by
  intro fuel
  induction fuel with
  | zero => rfl
  | succ f ih =>
    rw [chunkLoopF, if_pos (by norm_num)]
    have h0 : (0 : ℤ) + (1 - 1) = 0 := by ring
    rw [h0, ih]
    rfl

/-! ## Cosine similarity lemmas -/

lemma cosAccum_eq_of_length_eq [LinearOrderedField K] :
    ∀ (a b : List K), a.length = b.length → cosAccum a b = (dotFull a b, sumSq a, sumSq b) := by
  intro a
  induction a with
  | nil =>
    intro b hb
    have : b = [] := List.eq_nil_of_length_eq_zero hb.symm
    subst this
    rfl
  | cons x xs ih =>
    intro b hb
    cases b with
    | nil => simp at hb
    | cons y ys =>
      have hlen : xs.length = ys.length := by simpa using hb
      show (x * y + (cosAccum xs ys).1, x * x + (cosAccum xs ys).2.1,
        y * y + (cosAccum xs ys).2.2) = _
      rw [ih ys hlen]
      simp [dotFull, sumSq]

lemma cosAccum_take [LinearOrderedField K] :
    ∀ (a b : List K), cosAccum a b = cosAccum a (b.take a.length) := by
  intro a
  induction a with
  | nil => intro b; rfl
  | cons x xs ih =>
    intro b
    cases b with
    | nil => rfl
    | cons y ys =>
      show (x * y + (cosAccum xs ys).1, x * x + (cosAccum xs ys).2.1,
          y * y + (cosAccum xs ys).2.2) = _
      rw [List.length_cons, List.take_succ_cons]
      show _ = (x * y + (cosAccum xs (ys.take xs.length)).1,
        x * x + (cosAccum xs (ys.take xs.length)).2.1,
        y * y + (cosAccum xs (ys.take xs.length)).2.2)
      rw [← ih ys]

lemma sumSq_cons [LinearOrderedField K] (x : K) (xs : List K) :
    sumSq (x :: xs) = x * x + sumSq xs := by
  rw [sumSq, List.map_cons, List.sum_cons]
  rfl

lemma dotFull_cons [LinearOrderedField K] (x y : K) (xs ys : List K) :
    dotFull (x :: xs) (y :: ys) = x * y + dotFull xs ys := by
  rw [dotFull, List.zipWith_cons_cons, List.sum_cons]
  rfl

lemma sumSq_nonneg [LinearOrderedField K] (a : List K) : 0 ≤ sumSq a := by
  induction a with
  | nil => simp [sumSq]
  | cons x xs ih =>
    rw [sumSq, List.map_cons, List.sum_cons]
    exact add_nonneg (mul_self_nonneg x) ih

lemma dotFull_self [LinearOrderedField K] (a : List K) : dotFull a a = sumSq a := by
  induction a with
  | nil => rfl
  | cons x xs ih =>
    rw [dotFull, sumSq] at ih ⊢
    simp only [List.zipWith_cons_cons, List.map_cons, List.sum_cons]
    rw [ih]

lemma sumSq_map_mul [LinearOrderedField K] (t : K) (a : List K) :
    sumSq (a.map fun x => t * x) = t ^ 2 * sumSq a := by
  induction a with
  | nil => simp [sumSq]
  | cons x xs ih =>
    rw [List.map_cons, sumSq_cons, sumSq_cons, ih]
    ring

lemma dotFull_map_mul [LinearOrderedField K] (t : K) (a : List K) :
    dotFull a (a.map fun x => t * x) = t * sumSq a := by
  induction a with
  | nil => simp [dotFull, sumSq]
  | cons x xs ih =>
    rw [List.map_cons, dotFull_cons, sumSq_cons, ih]
    ring

/-- `cosineSimilarity` on equal-length real vectors is exactly the
specification's formula: dot product over the product of Euclidean norms,
with `0` when either norm vanishes. -/
lemma cosineSimilarity_formula (a b : List ℝ) (h : a.length = b.length) :
    cosineSimilarity Real.sqrt a b =
      if Real.sqrt (sumSq a) = 0 ∨ Real.sqrt (sumSq b) = 0 then 0
      else dotFull a b / (Real.sqrt (sumSq a) * Real.sqrt (sumSq b)) := by
  rw [cosineSimilarity, cosAccum_eq_of_length_eq a b h]
  simp only [mul_eq_zero]

lemma cosineSimilarity_self (a : List ℝ) (h : sumSq a ≠ 0) :
    cosineSimilarity Real.sqrt a a = 1 := by
  rw [cosineSimilarity_formula a a rfl]
  have hpos : 0 < sumSq a := lt_of_le_of_ne (sumSq_nonneg a) (Ne.symm h)
  have hsq : Real.sqrt (sumSq a) ≠ 0 := ne_of_gt (Real.sqrt_pos.mpr hpos)
  rw [if_neg (by push_neg; exact ⟨hsq, hsq⟩)]
  rw [dotFull_self, Real.mul_self_sqrt (sumSq_nonneg a), div_self h]

lemma cosineSimilarity_orthogonal (a b : List ℝ) (h : a.length = b.length)
    (hd : dotFull a b = 0) : cosineSimilarity Real.sqrt a b = 0 := by
  rw [cosineSimilarity_formula a b h]
  by_cases hc : Real.sqrt (sumSq a) = 0 ∨ Real.sqrt (sumSq b) = 0
  · rw [if_pos hc]
  · rw [if_neg hc, hd, zero_div]

lemma cosineSimilarity_antiparallel (a : List ℝ) (t : ℝ) (ht : t < 0)
    (h : sumSq a ≠ 0) : cosineSimilarity Real.sqrt a (a.map fun x => t * x) = -1 := by
  have hlen : a.length = (a.map fun x => t * x).length := (List.length_map a _).symm
  rw [cosineSimilarity_formula _ _ hlen, sumSq_map_mul, dotFull_map_mul]
  have hpos : 0 < sumSq a := lt_of_le_of_ne (sumSq_nonneg a) (Ne.symm h)
  have h1 : Real.sqrt (sumSq a) ≠ 0 := ne_of_gt (Real.sqrt_pos.mpr hpos)
  have ht0 : t ≠ 0 := ne_of_lt ht
  have h2pos : 0 < t ^ 2 * sumSq a := mul_pos (pow_two_pos_of_ne_zero ht0) hpos
  have h2 : Real.sqrt (t ^ 2 * sumSq a) ≠ 0 := ne_of_gt (Real.sqrt_pos.mpr h2pos)
  rw [if_neg (by push_neg; exact ⟨h1, h2⟩)]
  rw [Real.sqrt_mul (sq_nonneg t), Real.sqrt_sq_eq_abs, abs_of_neg ht]
  rw [show Real.sqrt (sumSq a) * (-t * Real.sqrt (sumSq a)) =
    -t * (Real.sqrt (sumSq a) * Real.sqrt (sumSq a)) from by ring]
  rw [Real.mul_self_sqrt (sumSq_nonneg a)]
  rw [div_eq_iff (by exact mul_ne_zero (neg_ne_zero.mpr ht0) h)]
  ring

lemma cosineSimilarity_zero_norm (a b : List ℝ) (h : a.length = b.length)
    (hz : sumSq a = 0 ∨ sumSq b = 0) : cosineSimilarity Real.sqrt a b = 0 := by
  rw [cosineSimilarity_formula a b h, if_pos]
  rcases hz with hz | hz
  · left
    rw [hz, Real.sqrt_zero]
  · right
    rw [hz, Real.sqrt_zero]

/-! ## Ranking lemmas: the sort of `queryRAG` -/

lemma sortByScoreDesc_perm [LinearOrderedField K] (l : List (RagResult K)) :
    (sortByScoreDesc l).Perm l :=
  List.perm_insertionSort scoreGE l

lemma sortByScoreDesc_sorted [LinearOrderedField K] (l : List (RagResult K)) :
    List.Sorted scoreGE (sortByScoreDesc l) :=
  List.sorted_insertionSort scoreGE l

/-- Inserting `a` into `m` with `orderedInsert scoreGE` puts it in front of
every element of equal score (it only passes elements of strictly greater
score), so filtering any fixed score value commutes with the insertion. -/
lemma filter_orderedInsert [LinearOrderedField K] (v : K) (a : RagResult K)
    (m : List (RagResult K)) :
    (List.orderedInsert scoreGE a m).filter (fun r => decide (r.score = v)) =
      if a.score = v then a :: m.filter (fun r => decide (r.score = v))
      else m.filter (fun r => decide (r.score = v)) := by
  induction m with
  | nil =>
    by_cases ha : a.score = v <;> simp [List.orderedInsert, List.filter, ha]
  | cons b m ih =>
    rw [List.orderedInsert]
    by_cases hab : scoreGE a b
    · rw [if_pos hab]
      by_cases ha : a.score = v <;> simp [List.filter_cons, ha]
    · rw [if_neg hab]
      have hba : a.score < b.score := not_le.mp hab
      by_cases ha : a.score = v
      · have hb : ¬ b.score = v := fun hbv =>
          absurd (hbv.trans ha.symm) (ne_of_gt hba)
        simp [List.filter_cons, hb, ih, ha]
      · simp [List.filter_cons, ih, ha]

lemma filter_sortByScoreDesc [LinearOrderedField K] (v : K) (l : List (RagResult K)) :
    (sortByScoreDesc l).filter (fun r => decide (r.score = v)) =
      l.filter (fun r => decide (r.score = v)) := by
  induction l with
  | nil => rfl
  | cons a l ih =>
    show (List.orderedInsert scoreGE a (List.insertionSort scoreGE l)).filter _ = _
    rw [filter_orderedInsert]
    by_cases ha : a.score = v
    · rw [if_pos ha]
      rw [show List.insertionSort scoreGE l = sortByScoreDesc l from rfl, ih]
      simp [List.filter_cons, ha]
    · rw [if_neg ha]
      rw [show List.insertionSort scoreGE l = sortByScoreDesc l from rfl, ih]
      simp [List.filter_cons, ha]

/-! ## queryRAG structure lemmas -/

/-- The early-return branch of `queryRAG` coincides with sorting and taking
from the empty candidate list, so `queryRAG` is unconditionally the `topK`
prefix of the descending sort of the scored candidates. -/
lemma queryRAG_eq_take [LinearOrderedField K] (sqrt : K → K) (embed : String → List K)
    (store : List (EmbRecord K)) (u q : String) (topK : ℕ) :
    queryRAG sqrt embed store u q topK =
      (sortByScoreDesc (ragScored sqrt (embed q) (ragCandidates store u))).take topK := by
  rw [queryRAG]
  by_cases h : (ragCandidates store u).length = 0
  · rw [if_pos h]
    rw [List.eq_nil_of_length_eq_zero h]
    simp [ragScored, sortByScoreDesc]
  · rw [if_neg h]

/-- Provenance of query results: every returned row comes from a stored record
of the queried owner, carrying that record's text, class label and document
id. -/
lemma mem_queryRAG_provenance [LinearOrderedField K] {sqrt : K → K} {embed : String → List K}
    {store : List (EmbRecord K)} {u q : String} {topK : ℕ} {r : RagResult K}
    (hr : r ∈ queryRAG sqrt embed store u q topK) :
    ∃ rec ∈ store, rec.userId = u ∧ rec.text = r.text ∧ rec.className = r.className ∧
      rec.syllabusId = r.syllabusId := by
  rw [queryRAG_eq_take] at hr
  have h1 : r ∈ sortByScoreDesc (ragScored sqrt (embed q) (ragCandidates store u)) :=
    List.mem_of_mem_take hr
  have h2 : r ∈ ragScored sqrt (embed q) (ragCandidates store u) :=
    (sortByScoreDesc_perm _).mem_iff.mp h1
  rw [ragScored, List.mem_map] at h2
  obtain ⟨emb, hemb, rfl⟩ := h2
  rw [ragCandidates, List.mem_filter] at hemb
  exact ⟨emb, hemb.1, by simpa using hemb.2, rfl, rfl, rfl⟩

/-- In a descending-sorted list, anything scoring strictly above a member of
the `n`-prefix is itself in the `n`-prefix. -/
lemma mem_take_of_gt_score [LinearOrderedField K] {l : List (RagResult K)} {n : ℕ}
    {r x : RagResult K} (hs : List.Sorted scoreGE l) (hr : r ∈ l.take n) (hx : x ∈ l)
    (hgt : r.score < x.score) : x ∈ l.take n := by
  by_contra hxn
  have hxdrop : x ∈ l.drop n := by
    rcases List.mem_append.mp (by rw [List.take_append_drop n l]; exact hx) with h | h
    · exact absurd h hxn
    · exact h
  have hpair : List.Pairwise scoreGE (l.take n ++ l.drop n) := by
    rw [List.take_append_drop n l]
    exact hs
  have hge : scoreGE r x := (List.pairwise_append.mp hpair).2.2 r hr x hxdrop
  exact absurd hgt (not_lt.mpr hge)

/-! ## indexSyllabus structure lemmas -/

lemma indexDocs_map_chunkIndex (u d cl : String) (chunks : List String)
    (embs : List (List K)) :
    (indexDocs u d cl chunks embs).map (fun r => r.chunkIndex) = List.range chunks.length := by
  rw [indexDocs, List.map_map]
  exact List.enum_map_fst chunks

lemma mem_indexDocs {u d cl : String} {chunks : List String} {embs : List (List K)}
    {r : EmbRecord K} (hr : r ∈ indexDocs u d cl chunks embs) :
    r.userId = u ∧ r.syllabusId = d ∧ r.className = cl ∧ r.chunkIndex < chunks.length ∧
      r.text ∈ chunks := by
  rw [indexDocs, List.mem_map] at hr
  obtain ⟨p, hp, rfl⟩ := hr
  refine ⟨rfl, rfl, rfl, ?_, ?_⟩
  · show p.1 < chunks.length
    have := List.fst_lt_add_of_mem_enumFrom hp
    omega
  · exact List.snd_mem_of_mem_enum hp

/-- Inversion of a successful `indexSyllabus` call: either the text chunked to
nothing and the store is untouched, or the embedding call succeeded and the
result is exactly the old store with the document's records appended. -/
lemma indexSyllabus_ok_elim {embedBatch : List String → Except String (List (List K))}
    {store store' : List (EmbRecord K)} {u d cl text : String} {n : ℕ}
    (h : indexSyllabus embedBatch store u d cl text = Except.ok (store', n)) :
    (chunkText text 500 50 = [] ∧ store' = store ∧ n = 0) ∨
    ((chunkText text 500 50).length ≠ 0 ∧
      ∃ embs, embedBatch (chunkText text 500 50) = Except.ok embs ∧
        n = (chunkText text 500 50).length ∧
        store' = store ++ indexDocs u d cl (chunkText text 500 50) embs) := by
  rw [indexSyllabus] at h
  by_cases hc : (chunkText text 500 50).length = 0
  · rw [if_pos hc] at h
    simp only [Except.ok.injEq, Prod.mk.injEq] at h
    exact Or.inl ⟨List.eq_nil_of_length_eq_zero hc, h.1.symm, h.2.symm⟩
  · rw [if_neg hc] at h
    cases heb : embedBatch (chunkText text 500 50) with
    | error e =>
      rw [heb] at h
      exact absurd h (by simp)
    | ok embs =>
      rw [heb] at h
      simp only [Except.ok.injEq, Prod.mk.injEq] at h
      exact Or.inr ⟨hc, embs, rfl, h.2.symm, h.1.symm⟩

/-- A failing embedding call on a nonempty chunk list propagates: the
operation aborts with the error, before any store write. -/
lemma indexSyllabus_error {embedBatch : List String → Except String (List (List K))}
    (store : List (EmbRecord K)) {u d cl text : String} {e : String}
    (hne : (chunkText text 500 50).length ≠ 0)
    (heb : embedBatch (chunkText text 500 50) = Except.error e) :
    indexSyllabus embedBatch store u d cl text = Except.error e := by
  rw [indexSyllabus, if_neg hne, heb]

/-! ## Claim theorems

Each theorem below settles one claim of the specification review; witnesses
instantiate the quantified theorems on concrete inputs. -/

/-- C2, counterexample.  The claim predicts that the single-chunk branch
returns the whitespace-normalized input and that the chunk count for `w > c`
is `ceil((w - c)/(c - o)) + 1`.  Both fail on the code: `chunkText` returns
the raw text `"a  b"` (double space preserved), and for `w = 10, c = 4,
o = 2` it produces `5` chunks (the loop keeps emitting trailing windows while
`i < words.length`), not `ceil(6/2) + 1 = 4`. -/
theorem chunkText_count_formula_counterexample :
    chunkText "a  b" 500 50 = ["a  b"] ∧ chunkText "a  b" 500 50 ≠ ["a b"] ∧
    (chunkText "a b c d e f g h i j" 4 2).length = 5 ∧
    (chunkText "a b c d e f g h i j" 4 2).length ≠ 4 :=
  ⟨by decide, by decide, by decide, by decide⟩

/-- C2 (amended): for `0 ≤ o < c`, if the token count `w` is at most `c` then
`chunkText` returns exactly one chunk equal to the **raw** input text;
otherwise (when every token contains a non-whitespace character) it returns
exactly `ceil(w / (c - o))` chunks, window `i` covering tokens
`[i*(c-o), i*(c-o)+c)` — the loop emits a window for every start offset below
`w` rather than stopping once the end of the token sequence is covered. -/
theorem chunkText_count_spec (text : String) (c o : ℤ) (ho : 0 ≤ o) (hoc : o < c) :
    (((jsSplitWs text).length : ℤ) ≤ c → chunkText text c o = [text]) ∧
    (c < ((jsSplitWs text).length : ℤ) → (∀ t ∈ jsSplitWs text, hasNonWs t = true) →
      chunkText text c o =
        (List.range (((jsSplitWs text).length + (c - o).toNat - 1) / (c - o).toNat)).map
          (chunkWindow (jsSplitWs text) c o) ∧
      (chunkText text c o).length =
        ((jsSplitWs text).length + (c - o).toNat - 1) / (c - o).toNat) := by
  constructor
  · intro hw
    exact chunkText_of_le text c o hw
  · intro hw hall
    have hwin := chunkText_windows text c o (by omega) (by omega) hw hall
    have hcount : windowsFrom (jsSplitWs text).length (c - o).toNat 0 =
        ((jsSplitWs text).length + (c - o).toNat - 1) / (c - o).toNat := by
      rw [windowsFrom, Nat.zero_mul, Nat.sub_zero]
    rw [hcount] at hwin
    exact ⟨hwin, by rw [hwin]; simp⟩

/-- Witness for the amended C2 at `w = 10, c = 4, o = 2`: the hypotheses hold
and the ten-word text chunks into `ceil(10/2) = 5` windows. -/
theorem chunkText_count_spec_witness :
    chunkText "a b c d e f g h i j" 4 2 =
      (List.range (((jsSplitWs "a b c d e f g h i j").length + ((4 : ℤ) - 2).toNat - 1) /
        ((4 : ℤ) - 2).toNat)).map (chunkWindow (jsSplitWs "a b c d e f g h i j") 4 2) :=
  ((chunkText_count_spec "a b c d e f g h i j" 4 2 (by norm_num) (by norm_num)).2
    (by decide) (by decide)).1

/-- C3, counterexample.  `chunkText` does not guard the configuration
`overlap >= chunkSize`: with `chunkSize = overlap = 1` on the two-word text
`"a b"` the loop increment is `0`, the window start never advances, and the
loop never terminates (every fuel is exhausted), so `chunkText` is not a
terminating function for every input. -/
theorem chunkText_divergence_counterexample : chunkTextDiverges "a b" 1 1 := by
  intro fuel
  rw [chunkTextF]
  have hsplit : jsSplitWs "a b" = ["a", "b"] := by decide
  rw [hsplit]
  rw [if_neg (by norm_num)]
  exact chunkLoopF_ab_none fuel

/-- C3 (amended): `chunkText` terminates whenever `overlap < chunkSize` (fuel
`words.length + 1` always suffices, and every larger fuel computes the same
value `chunkText text c o`); with `overlap ≥ chunkSize` and more than
`chunkSize` tokens the loop never advances and the function diverges. -/
theorem chunkText_termination_spec (text : String) (c o : ℤ) (fuel : ℕ) (h : o < c)
    (hfuel : (jsSplitWs text).length + 1 ≤ fuel) :
    chunkTextF fuel text c o = some (chunkText text c o) :=
  chunkTextF_eq_chunkText text c o h hfuel

/-- Witness for the amended C3: fuel `3` suffices for the two-word text at the
default-style configuration `c = 500, o = 50`. -/
theorem chunkText_termination_spec_witness :
    chunkTextF 3 "a b" 500 50 = some (chunkText "a b" 500 50) :=
  chunkText_termination_spec "a b" 500 50 3 (by norm_num) (by decide)

/-- C5, code-bug evaluation.  JavaScript `"".split(/\s+/)` is `[""]`, so
`chunkText` on empty (or whitespace-only) text returns one raw chunk instead
of zero chunks; `indexSyllabus` on `""` therefore does not return `0`
immediately: it calls the embedding client with the single empty chunk and,
if that call succeeds, writes one record with empty text to the store —
contradicting the spec's empty-input scenario and its own store schema, which
requires chunk text to be non-empty. -/
theorem chunkText_empty_input_behavior :
    chunkText "" 500 50 = [""] ∧
    chunkText " " 500 50 = [" "] ∧
    indexSyllabus (fun l => Except.ok (l.map fun _ => [(1 : ℚ)])) [] "u1" "d2" "Math" "" =
      Except.ok ([⟨"u1", "d2", "Math", 0, "", [1]⟩], 1) ∧
    indexSyllabus (K := ℚ) (fun _ => Except.error "embedding client called") [] "u1" "d2"
      "Math" "" = Except.error "embedding client called" := by
  refine ⟨by decide, by decide, ?_, ?_⟩ <;>
    simp [indexSyllabus, indexDocs, chunkText, chunkTextF, jsSplitWs, splitWsAux, chunkLoopF]

/-- C4, counterexample.  `cosineSimilarity` performs no dimension check: on the
mismatched pair `[1]` and `[1, 5]` (stored vector longer than the query) it
happily returns the score `1`, computed by reading only the first component of
the longer vector — a silently-truncated comparison, not a fail-closed
rejection. -/
theorem cosineSimilarity_dimension_mismatch_counterexample :
    [(1 : ℝ)].length ≠ [(1 : ℝ), 5].length ∧
    cosineSimilarity Real.sqrt [(1 : ℝ)] [1, 5] = 1 ∧
    cosineSimilarity Real.sqrt [(1 : ℝ)] [1, 5] =
      cosineSimilarity Real.sqrt [(1 : ℝ)] [1] := by
  refine ⟨by simp, ?_, ?_⟩ <;>
    simp [cosineSimilarity, cosAccum, Real.sqrt_one]

/-- C4 (amended): the ranking scorer never rejects a dimension mismatch; it
reads exactly the first `a.length` entries of the candidate vector, so the
score of any pair equals the score of the query against the candidate
truncated to the query's length (components of a longer stored vector beyond
the query's length are silently ignored). -/
theorem cosineSimilarity_truncation_spec [LinearOrderedField K] (sqrt : K → K)
    (a b : List K) : cosineSimilarity sqrt a b = cosineSimilarity sqrt a (b.take a.length) := by
  rw [cosineSimilarity, cosineSimilarity, ← cosAccum_take]

/-- C7: on equal-length real vectors, `cosineSimilarity` with `Math.sqrt =
Real.sqrt` is the dot product divided by the product of the Euclidean norms
(`Real.sqrt ∘ sumSq`), with score `0` when either norm vanishes; consequently
an identical non-zero pair scores `1`, an orthogonal pair scores `0`, an
antiparallel pair (negative scalar multiple) scores `-1`, and any pair with a
zero vector scores `0`. -/
theorem cosineSimilarity_correctness_spec :
    (∀ a b : List ℝ, a.length = b.length →
      cosineSimilarity Real.sqrt a b =
        if Real.sqrt (sumSq a) = 0 ∨ Real.sqrt (sumSq b) = 0 then 0
        else dotFull a b / (Real.sqrt (sumSq a) * Real.sqrt (sumSq b))) ∧
    (∀ a : List ℝ, sumSq a ≠ 0 → cosineSimilarity Real.sqrt a a = 1) ∧
    (∀ a b : List ℝ, a.length = b.length → dotFull a b = 0 →
      cosineSimilarity Real.sqrt a b = 0) ∧
    (∀ (a : List ℝ) (t : ℝ), t < 0 → sumSq a ≠ 0 →
      cosineSimilarity Real.sqrt a (a.map fun x => t * x) = -1) ∧
    (∀ a b : List ℝ, a.length = b.length → sumSq a = 0 ∨ sumSq b = 0 →
      cosineSimilarity Real.sqrt a b = 0) :=
  ⟨cosineSimilarity_formula, cosineSimilarity_self, cosineSimilarity_orthogonal,
    cosineSimilarity_antiparallel, cosineSimilarity_zero_norm⟩

/-- Witness for C7 on concrete vectors: `[1,0]` against itself scores `1`,
against the orthogonal `[0,1]` scores `0`, against its antiparallel image
under `x ↦ -2x` scores `-1`, and the zero vector scores `0` against
anything. -/
theorem cosineSimilarity_correctness_spec_witness :
    cosineSimilarity Real.sqrt [(1 : ℝ), 0] [1, 0] = 1 ∧
    cosineSimilarity Real.sqrt [(1 : ℝ), 0] [0, 1] = 0 ∧
    cosineSimilarity Real.sqrt [(1 : ℝ), 0] ([(1 : ℝ), 0].map fun x => (-2) * x) = -1 ∧
    cosineSimilarity Real.sqrt [(0 : ℝ), 0] [1, 1] = 0 := by
  refine ⟨cosineSimilarity_correctness_spec.2.1 [(1 : ℝ), 0] ?_,
    cosineSimilarity_correctness_spec.2.2.1 [(1 : ℝ), 0] [0, 1] rfl ?_,
    cosineSimilarity_correctness_spec.2.2.2.1 [(1 : ℝ), 0] (-2) (by norm_num) ?_,
    cosineSimilarity_correctness_spec.2.2.2.2 [(0 : ℝ), 0] [1, 1] rfl (Or.inl ?_)⟩
  · simp [sumSq]
  · simp [dotFull]
  · simp [sumSq]
  · simp [sumSq]

/-- C1: tenant isolation.  Queries for owner `A` read and score only `A`'s
stored records and every returned row originates from a record owned by `A`;
`indexSyllabus` for `A` only appends records owned by `A`; and
`removeSyllabusFromIndex(A, d)` deletes only records matching both `A` and
`d`.  In particular a second owner `B ≠ A` (even with the same document id)
is never read by `A`'s query and never touched by `A`'s delete. -/
theorem tenant_isolation_spec (K : Type) [LinearOrderedField K] (sqrt : K → K)
    (embed : String → List K) (embedBatch : List String → Except String (List (List K)))
    (store : List (EmbRecord K)) (A B q d cl text : String) (topK : ℕ) (hAB : A ≠ B) :
    (∀ r ∈ queryRAG sqrt embed store A q topK,
      ∃ rec ∈ store, rec.userId = A ∧ rec.text = r.text ∧ rec.className = r.className ∧
        rec.syllabusId = r.syllabusId) ∧
    (∀ rec ∈ ragCandidates store A, rec ∈ store ∧ rec.userId = A) ∧
    (∀ rec ∈ store, rec.userId = B → rec ∉ ragCandidates store A) ∧
    (∀ store' n, indexSyllabus embedBatch store A d cl text = Except.ok (store', n) →
      ∀ r ∈ store', r ∈ store ∨ r.userId = A) ∧
    (∀ r ∈ store, r ∉ removeSyllabusFromIndex store A d →
      r.userId = A ∧ r.syllabusId = d) ∧
    (∀ r ∈ removeSyllabusFromIndex store A d, r ∈ store) ∧
    (∀ rec ∈ store, rec.userId = B → rec ∈ removeSyllabusFromIndex store A d) := by
  refine ⟨?_, ?_, ?_, ?_, ?_, ?_, ?_⟩
  · intro r hr
    exact mem_queryRAG_provenance hr
  · intro rec hrec
    rw [ragCandidates, List.mem_filter] at hrec
    exact ⟨hrec.1, by simpa using hrec.2⟩
  · intro rec _ hB hmem
    rw [ragCandidates, List.mem_filter] at hmem
    have : rec.userId = A := by simpa using hmem.2
    exact hAB (this.symm.trans hB)
  · intro store' n h r hr
    rcases indexSyllabus_ok_elim h with ⟨_, rfl, _⟩ | ⟨_, embs, _, _, rfl⟩
    · exact Or.inl hr
    · rcases List.mem_append.mp hr with hr | hr
      · exact Or.inl hr
      · exact Or.inr (mem_indexDocs hr).1
  · intro r hr hnot
    rw [removeSyllabusFromIndex] at hnot
    by_contra hcon
    apply hnot
    rw [List.mem_filter]
    refine ⟨hr, ?_⟩
    by_cases h1 : r.userId = A
    · have h2 : r.syllabusId ≠ d := fun h2 => hcon ⟨h1, h2⟩
      simp [h1, h2]
    · simp [h1]
  · intro r hr
    exact List.mem_of_mem_filter hr
  · intro rec hrec hB
    rw [removeSyllabusFromIndex, List.mem_filter]
    refine ⟨hrec, ?_⟩
    have : (rec.userId == A) = false := by
      rw [beq_eq_false_iff_ne]
      rw [hB]
      exact Ne.symm hAB
    rw [this]
    rfl

/-- Witness for C1 on a two-owner store over `ℚ` with a shared document id:
the query for `"A"` returns a row whose originating record is owned by `"A"`,
and `"B"`'s record survives `"A"`'s delete of the shared document id. -/
theorem tenant_isolation_spec_witness :
    (∃ rec ∈ ([⟨"A", "d1", "CS", 0, "tA", [1]⟩, ⟨"B", "d1", "CS", 0, "tB", [1]⟩] :
        List (EmbRecord ℚ)),
      rec.userId = "A" ∧ rec.text = "tA" ∧ rec.className = "CS" ∧ rec.syllabusId = "d1") ∧
    (⟨"B", "d1", "CS", 0, "tB", [1]⟩ : EmbRecord ℚ) ∈
      removeSyllabusFromIndex
        [⟨"A", "d1", "CS", 0, "tA", [1]⟩, ⟨"B", "d1", "CS", 0, "tB", [1]⟩] "A" "d1" := by
  have h := tenant_isolation_spec ℚ id (fun _ => [1]) (fun l => Except.ok (l.map fun _ => [1]))
    [⟨"A", "d1", "CS", 0, "tA", [1]⟩, ⟨"B", "d1", "CS", 0, "tB", [1]⟩] "A" "B" "q" "d1" "CS"
    "w" 5 (by decide)
  constructor
  · have hres : (⟨"tA", "CS", "d1", 1⟩ : RagResult ℚ) ∈
        queryRAG id (fun _ => [1])
          [⟨"A", "d1", "CS", 0, "tA", [1]⟩, ⟨"B", "d1", "CS", 0, "tB", [1]⟩] "A" "q" 5 := by
      simp [queryRAG, ragCandidates, ragScored, sortByScoreDesc, cosineSimilarity, cosAccum,
        scoreGE]
    exact h.1 _ hres
  · exact h.2.2.2.2.2.2 _ (List.mem_cons.mpr (Or.inr (List.mem_singleton.mpr rfl))) rfl

/-- C9: delete completeness and idempotence.  After
`removeSyllabusFromIndex(u, d)` no record with owner `u` and document `d`
remains, the surviving records are a sub-collection of the old store, a
subsequent query for `u` can never surface a row with document id `d`,
deleting again is a no-op, and deleting a pair with no matching records leaves
the store unchanged (and is not an error — the operation is total). -/
theorem removeSyllabus_delete_spec (K : Type) [LinearOrderedField K] (sqrt : K → K)
    (embed : String → List K) (store : List (EmbRecord K)) (u d q : String) (topK : ℕ) :
    (∀ r ∈ removeSyllabusFromIndex store u d, ¬(r.userId = u ∧ r.syllabusId = d)) ∧
    (∀ r ∈ removeSyllabusFromIndex store u d, r ∈ store) ∧
    (∀ res ∈ queryRAG sqrt embed (removeSyllabusFromIndex store u d) u q topK,
      res.syllabusId ≠ d) ∧
    removeSyllabusFromIndex (removeSyllabusFromIndex store u d) u d =
      removeSyllabusFromIndex store u d ∧
    ((∀ r ∈ store, ¬(r.userId = u ∧ r.syllabusId = d)) →
      removeSyllabusFromIndex store u d = store) := by
  have hmem : ∀ r ∈ removeSyllabusFromIndex store u d, ¬(r.userId = u ∧ r.syllabusId = d) := by
    intro r hr
    rw [removeSyllabusFromIndex, List.mem_filter] at hr
    rintro ⟨h1, h2⟩
    have := hr.2
    simp [h1, h2] at this
  refine ⟨hmem, ?_, ?_, ?_, ?_⟩
  · intro r hr
    exact List.mem_of_mem_filter hr
  · intro res hres hcon
    obtain ⟨rec, hrec, huid, -, -, hsid⟩ := mem_queryRAG_provenance hres
    exact hmem rec hrec ⟨huid, hsid.trans hcon⟩
  · rw [removeSyllabusFromIndex, removeSyllabusFromIndex, List.filter_filter]
    simp
  · intro hnone
    rw [removeSyllabusFromIndex]
    apply List.filter_eq_self.mpr
    intro r hr
    have hno := hnone r hr
    by_cases h1 : r.userId = u
    · have h2 : r.syllabusId ≠ d := fun h2 => hno ⟨h1, h2⟩
      simp [h1, h2]
    · simp [h1]

/-- Witness for C9: deleting a document id with no indexed chunks is a no-op
on a concrete one-record store. -/
theorem removeSyllabus_delete_spec_witness :
    removeSyllabusFromIndex ([⟨"A", "d2", "CS", 0, "t", [1]⟩] : List (EmbRecord ℚ))
      "A" "d1" = [⟨"A", "d2", "CS", 0, "t", [1]⟩] :=
  (removeSyllabus_delete_spec ℚ id (fun _ => [1]) [⟨"A", "d2", "CS", 0, "t", [1]⟩]
    "A" "d1" "q" 5).2.2.2.2 (by
      intro r hr
      rw [List.mem_singleton] at hr
      subst hr
      rintro ⟨-, h2⟩
      exact absurd h2 (by decide))

/-- C10: insert-only frame property of `indexSyllabus`.  A successful call
leaves every previously stored record in place (the old store is a prefix of
the new one), reports the chunk count, appends exactly the new records — owned
by the given `(owner, document, class)` with `chunkIndex` running `0..n-1` —
and indexing the same document twice without an intervening delete appends a
second copy, duplicating the `chunkIndex` values. -/
theorem indexSyllabus_frame_spec (K : Type)
    (embedBatch : List String → Except String (List (List K)))
    (store store' : List (EmbRecord K)) (u d cl text : String) (n : ℕ)
    (h : indexSyllabus embedBatch store u d cl text = Except.ok (store', n)) :
    store'.take store.length = store ∧
    n = (chunkText text 500 50).length ∧
    (store'.drop store.length).map (fun r => r.chunkIndex) = List.range n ∧
    (∀ r ∈ store, r ∈ store') ∧
    (∀ r ∈ store', r ∈ store ∨
      (r.userId = u ∧ r.syllabusId = d ∧ r.className = cl ∧ r.chunkIndex < n)) ∧
    (∀ store'' n₂, indexSyllabus embedBatch store' u d cl text = Except.ok (store'', n₂) →
      n₂ = n ∧ (store''.drop store.length).map (fun r => r.chunkIndex) =
        List.range n ++ List.range n) := by
  rcases indexSyllabus_ok_elim h with ⟨hnil, rfl, rfl⟩ | ⟨hne, embs, heb, hn, rfl⟩
  · refine ⟨List.take_length _, by rw [hnil]; rfl, by simp [List.drop_length],
      fun r hr => hr, fun r hr => Or.inl hr, ?_⟩
    intro store'' n₂ h2
    rcases indexSyllabus_ok_elim h2 with ⟨-, rfl, rfl⟩ | ⟨hne2, -, -, -, -⟩
    · exact ⟨rfl, by simp [List.drop_length]⟩
    · exact absurd (by rw [hnil]; rfl) hne2
  · refine ⟨List.take_left store _, hn, ?_, fun r hr => List.mem_append_left _ hr, ?_, ?_⟩
    · rw [List.drop_left, indexDocs_map_chunkIndex, hn]
    · intro r hr
      rcases List.mem_append.mp hr with hr | hr
      · exact Or.inl hr
      · obtain ⟨h1, h2, h3, h4, -⟩ := mem_indexDocs hr
        exact Or.inr ⟨h1, h2, h3, hn ▸ h4⟩
    · intro store'' n₂ h2
      rcases indexSyllabus_ok_elim h2 with ⟨hnil2, rfl, rfl⟩ | ⟨-, embs2, -, hn2, rfl⟩
      · exact absurd (by rw [hnil2]; rfl) hne
      · refine ⟨hn2.trans hn.symm, ?_⟩
        rw [List.append_assoc, List.drop_left, List.map_append, indexDocs_map_chunkIndex,
          indexDocs_map_chunkIndex, hn]

/-- Witness for C10: indexing a one-chunk document for `"A"` on a store
already holding a `"B"` record leaves the old record as the prefix. -/
theorem indexSyllabus_frame_spec_witness :
    ([(⟨"B", "d0", "X", 0, "t0", [2]⟩ : EmbRecord ℚ),
      ⟨"A", "d1", "CS", 0, "hi", [1]⟩].take 1) = [⟨"B", "d0", "X", 0, "t0", [2]⟩] :=
  (indexSyllabus_frame_spec ℚ (fun l => Except.ok (l.map fun _ => [1]))
    [⟨"B", "d0", "X", 0, "t0", [2]⟩]
    [⟨"B", "d0", "X", 0, "t0", [2]⟩, ⟨"A", "d1", "CS", 0, "hi", [1]⟩]
    "A" "d1" "CS" "hi" 1
    (by simp [indexSyllabus, indexDocs, chunkText, chunkTextF, jsSplitWs, splitWsAux, isWs,
      chunkLoopF])).1

/-- C8: ingest atomicity on embedding failure.  When the batch embedding call
fails on a document's chunks, `indexSyllabus` propagates the error and never
returns a store (so no partial set of the document's chunks becomes
queryable), while the surrounding upload still saves the raw syllabus
document, leaves the embedding store exactly as it was, succeeds, and reports
zero chunks indexed. -/
theorem indexSyllabus_abort_upload_spec (K : Type)
    (embedBatch : List String → Except String (List (List K)))
    (sylStore : List SyllabusDoc) (embStore : List (EmbRecord K))
    (u cl text d e : String)
    (hne : (chunkText text 500 50).length ≠ 0)
    (heb : embedBatch (chunkText text 500 50) = Except.error e) :
    indexSyllabus embedBatch embStore u d cl text = Except.error e ∧
    (∀ store' n, indexSyllabus embedBatch embStore u d cl text ≠ Except.ok (store', n)) ∧
    uploadSyllabus embedBatch sylStore embStore u cl text d =
      (sylStore ++ [⟨u, cl, text⟩], embStore, 0) := by
  have herr : indexSyllabus embedBatch embStore u d cl text = Except.error e :=
    indexSyllabus_error embStore hne heb
  refine ⟨herr, ?_, ?_⟩
  · intro store' n hok
    rw [herr] at hok
    exact absurd hok (by simp)
  · rw [uploadSyllabus]
    by_cases hguard : (text != "" && text != "[Text extraction failed]") = true
    · rw [if_pos hguard, herr]
    · rw [if_neg hguard]

/-- Witness for C8: a constantly-failing embedding client on a one-word text
aborts indexing with the error while the upload still stores the raw document
and reports zero chunks. -/
theorem indexSyllabus_abort_upload_spec_witness :
    indexSyllabus (K := ℚ) (fun _ => Except.error "boom") [] "u1" "d1" "CS" "a" =
      Except.error "boom" ∧
    uploadSyllabus (K := ℚ) (fun _ => Except.error "boom") [] [] "u1" "CS" "a" "d1" =
      ([⟨"u1", "CS", "a"⟩], [], 0) := by
  have h := indexSyllabus_abort_upload_spec ℚ (fun _ => Except.error "boom") [] []
    "u1" "CS" "a" "d1" "boom" (by decide) rfl
  exact ⟨h.1, h.2.2⟩

/-- C6: the top-K ranking contract of `queryRAG`.  The result is the `topK`
prefix of the stable descending sort of the scored candidates, hence: its
length is `min topK N` for `N` candidates of this owner; it is ordered
descending by score; every returned row is a scored candidate and anything
scoring strictly above a returned row is also returned (so with pairwise
distinct scores and `K ≤ N` the result is exactly the `K` globally
highest-scoring candidates, in strictly descending order); and for every score
value, the returned rows with that score are an initial segment of the scored
candidates with that score in input order (deterministic, input-order
tie-breaking). -/
theorem queryRAG_topK_spec (K : Type) [LinearOrderedField K] (sqrt : K → K)
    (embed : String → List K) (store : List (EmbRecord K)) (u q : String) (topK : ℕ) :
    (queryRAG sqrt embed store u q topK).length =
      min topK (ragCandidates store u).length ∧
    List.Sorted scoreGE (queryRAG sqrt embed store u q topK) ∧
    (∀ r ∈ queryRAG sqrt embed store u q topK,
      r ∈ ragScored sqrt (embed q) (ragCandidates store u)) ∧
    (∀ r ∈ queryRAG sqrt embed store u q topK,
      ∀ x ∈ ragScored sqrt (embed q) (ragCandidates store u),
        r.score < x.score → x ∈ queryRAG sqrt embed store u q topK) ∧
    (List.Pairwise (fun x y => x.score ≠ y.score)
        (ragScored sqrt (embed q) (ragCandidates store u)) →
      List.Pairwise (fun x y => y.score < x.score) (queryRAG sqrt embed store u q topK)) ∧
    (∀ v : K, (queryRAG sqrt embed store u q topK).filter (fun r => decide (r.score = v)) =
      ((ragScored sqrt (embed q) (ragCandidates store u)).filter
        (fun r => decide (r.score = v))).take
        (((queryRAG sqrt embed store u q topK).filter
          (fun r => decide (r.score = v))).length)) := by
  have heq := queryRAG_eq_take sqrt embed store u q topK
  have hsorted : List.Pairwise scoreGE
      (sortByScoreDesc (ragScored sqrt (embed q) (ragCandidates store u))) :=
    sortByScoreDesc_sorted _
  refine ⟨?_, ?_, ?_, ?_, ?_, ?_⟩
  · rw [heq, List.length_take,
      (sortByScoreDesc_perm (ragScored sqrt (embed q) (ragCandidates store u))).length_eq,
      ragScored, List.length_map]
  · rw [heq]
    exact List.Pairwise.sublist (List.take_sublist _ _) hsorted
  · intro r hr
    rw [heq] at hr
    exact (sortByScoreDesc_perm _).mem_iff.mp (List.mem_of_mem_take hr)
  · intro r hr x hx hlt
    rw [heq] at hr ⊢
    exact mem_take_of_gt_score (sortByScoreDesc_sorted _) hr
      ((sortByScoreDesc_perm _).mem_iff.mpr hx) hlt
  · intro hpair
    rw [heq]
    have hpair2 : List.Pairwise (fun x y => x.score ≠ y.score)
        (sortByScoreDesc (ragScored sqrt (embed q) (ragCandidates store u))) :=
      ((sortByScoreDesc_perm _).pairwise_iff fun h => h.symm).mpr hpair
    have hstrict : List.Pairwise (fun x y : RagResult K => y.score < x.score)
        (sortByScoreDesc (ragScored sqrt (embed q) (ragCandidates store u))) :=
      (hsorted.and hpair2).imp fun hab => lt_of_le_of_ne hab.1 hab.2.symm
    exact List.Pairwise.sublist (List.take_sublist _ _) hstrict
  · intro v
    rw [heq]
    have hsplit : (ragScored sqrt (embed q) (ragCandidates store u)).filter
        (fun r => decide (r.score = v)) =
        ((sortByScoreDesc (ragScored sqrt (embed q) (ragCandidates store u))).take
          topK).filter (fun r => decide (r.score = v)) ++
        ((sortByScoreDesc (ragScored sqrt (embed q) (ragCandidates store u))).drop
          topK).filter (fun r => decide (r.score = v)) := by
      rw [← List.filter_append, List.take_append_drop]
      exact (filter_sortByScoreDesc v _).symm
    rw [hsplit]
    exact (List.take_left _ _).symm

/-- Witness for C6 on a concrete two-candidate store over `ℚ`: the result
length is `min topK N`. -/
theorem queryRAG_topK_spec_witness :
    (queryRAG (K := ℚ) id (fun _ => [1, 0])
      [⟨"A", "d1", "CS", 0, "t1", [0, 1]⟩, ⟨"A", "d2", "CS", 0, "t2", [1, 0]⟩]
      "A" "q" 1).length =
      min 1 (ragCandidates (K := ℚ)
        [⟨"A", "d1", "CS", 0, "t1", [0, 1]⟩, ⟨"A", "d2", "CS", 0, "t2", [1, 0]⟩] "A").length :=
  (queryRAG_topK_spec ℚ id (fun _ => [1, 0])
    [⟨"A", "d1", "CS", 0, "t1", [0, 1]⟩, ⟨"A", "d2", "CS", 0, "t2", [1, 0]⟩] "A" "q" 1).1

end Syllabuddy
